import Mathlib

/-!
# Replay buffers of `torch_baselines/common/buffers.py`: a shallow embedding

This file embeds the replay-buffer classes of the repository —
`ReplayBuffer`, `EfficentReplayBuffer`, `PrioritizedReplayBuffer`,
`EpisodicReplayBuffer`, `PrioritizedEpisodicReplayBuffer` — as Lean
state-passing functions, and proves theorems about the embedded operations.

Conventions used throughout:

* A transition record is opaque where the code treats it opaquely (`ReplayBuffer`
  stores an arbitrary tuple, embedded as a type parameter `α`); the episodic
  buffer inspects reward / next-observation / done / episode fields of its
  records, so those are embedded as an explicit structure.
* Python floats are embedded as real numbers where a real-valued exponent is
  involved (priorities, importance weights) and as rationals where all
  arithmetic is field arithmetic (episodic reward folding).
* A Python function that can raise is embedded via `Except PyErr`; a method
  body that cannot raise is embedded as a total function.
* Randomness is passed in explicitly: each embedded sampler takes the outcomes
  of the random source as an argument (a natural number for the integer
  generators, a real in `[0, 1)` for `np.random.random`).

The segment trees (`SumSegmentTree`, `MinSegmentTree`) are imported by
`buffers.py` from `torch_baselines/common/segment_tree.py`, a module that is
not part of the provided sources; those operations are modelled from the spec,
each such definition saying so in its doc comment.
-/

/-- Kinds of Python exception relevant to the embedded code.
`emptyBufferError` is modelled from the spec: the spec's error taxonomy names
a dedicated `EmptyBufferError` for sampling from an empty buffer; no class of
that name exists anywhere in the source, which is what the theorem about the
corresponding claim settles. -/
inductive PyErr where
  | valueError
  | keyError
  | indexError
  | attributeError
  | emptyBufferError
  deriving DecidableEq

/-- Model of Python `random.randint(lo, hi)`: uniform over the *inclusive*
range `[lo, hi]` (`randint(a, b)` is `randrange(a, b + 1)`), raising
`ValueError` when the range is empty, i.e. when `hi < lo`.  The outcome of
the random source is an arbitrary natural `r`; as `r` ranges over `ℕ`,
`lo + r % (hi - lo + 1)` ranges over exactly `[lo, hi]`. -/
def pyRandint (lo hi : ℤ) (r : ℕ) : Except PyErr ℤ :=
  if hi < lo then Except.error PyErr.valueError
  else Except.ok (lo + (r : ℤ) % (hi - lo + 1))

/-- Model of numpy `np.random.randint(lo, hi)`: uniform over the *half-open*
range `[lo, hi)`, raising `ValueError` when `hi ≤ lo`. -/
def npRandint (lo hi : ℤ) (r : ℕ) : Except PyErr ℤ :=
  if hi ≤ lo then Except.error PyErr.valueError
  else Except.ok (lo + (r : ℤ) % (hi - lo))

/-- State of `ReplayBuffer`: the ring storage `self._storage` (a Python list
that grows until the capacity is reached), the capacity `self._maxsize` and
the write cursor `self._next_idx`. -/
structure ReplayBuffer (α : Type) where
  _storage : List α
  _maxsize : ℕ
  _next_idx : ℕ
  deriving DecidableEq

/-- Model of `ReplayBuffer.__init__(size)`. -/
def ReplayBuffer.init (α : Type) (size : ℕ) : ReplayBuffer α :=
  { _storage := [], _maxsize := size, _next_idx := 0 }

/-- Model of `ReplayBuffer.__len__`. -/
def ReplayBuffer.length {α : Type} (s : ReplayBuffer α) : ℕ :=
  s._storage.length

/-- Model of `ReplayBuffer.add(obs_t, action, reward, nxtobs_t, done)`: the packed
tuple `data` is the opaque record `data : α`.  If the cursor is at or past
the end of the storage list the record is appended, otherwise the slot at the
cursor is overwritten; the cursor then advances modulo the capacity.  The
method body contains no `return` statement, so a call evaluates to `None`;
that (absent) return value is modelled separately by `ReplayBuffer.addReturn`. -/
def ReplayBuffer.add {α : Type} (s : ReplayBuffer α) (data : α) : ReplayBuffer α :=
  { _storage :=
      if s._storage.length ≤ s._next_idx then s._storage ++ [data]
      else s._storage.set s._next_idx data
    _maxsize := s._maxsize
    _next_idx := (s._next_idx + 1) % s._maxsize }

/-- The value a call of `ReplayBuffer.add` evaluates to.  The Python method
has no `return` statement, so the call evaluates to `None`, embedded as
`none`; a slot index would be `some i`. -/
def ReplayBuffer.addReturn {α : Type} (_s : ReplayBuffer α) (_data : α) : Option ℕ :=
  none

/-- A whole sequence of `add` calls, oldest first. -/
def ReplayBuffer.addAll {α : Type} (s : ReplayBuffer α) (xs : List α) : ReplayBuffer α :=
  xs.foldl ReplayBuffer.add s

/-- The index-drawing part of `ReplayBuffer.sample(batch_size)`: one
`random.randint(0, len(self._storage) - 1)` per requested sample, the
subtraction taken over `ℤ` as in Python.  `rs` lists the outcomes of the
random source, one per draw, so `rs.length` plays the role of `batch_size`. -/
def ReplayBuffer.sampleIdxes {α : Type} (s : ReplayBuffer α) (rs : List ℕ) :
    Except PyErr (List ℤ) :=
  rs.mapM (fun r => pyRandint 0 ((s._storage.length : ℤ) - 1) r)

/-- Model of `ReplayBuffer.sample` as a state transformer: the method body reads the
storage but assigns no attribute, so the resulting state is the input state;
the first component is the drawn index list (or the exception). -/
def ReplayBuffer.sampleStep {α : Type} (s : ReplayBuffer α) (rs : List ℕ) :
    Except PyErr (List ℤ) × ReplayBuffer α :=
  (s.sampleIdxes rs, s)

/-- State of `EfficentReplayBuffer`: per-field storages.  The per-modality
observation arrays are embedded as functions (modality index, slot index) ↦
value and the flat arrays as functions slot index ↦ value (an array cell the
code never wrote holds the zero the constructor filled in); `storage_size` is
the logical length. -/
structure EfficentReplayBuffer where
  obs_num : ℕ
  observation_storage : ℕ → ℕ → ℚ
  next_observation_storage : ℕ → ℕ → ℚ
  action_storage : ℕ → ℚ
  reward_storage : ℕ → ℚ
  done_storage : ℕ → ℚ
  _maxsize : ℕ
  _next_idx : ℕ
  storage_size : ℕ

/-- Model of `EfficentReplayBuffer.__init__(size, observation_space)`: all storages
zero-filled; `obs_num = len(observation_space)`. -/
def EfficentReplayBuffer.init (size obsNum : ℕ) : EfficentReplayBuffer :=
  { obs_num := obsNum
    observation_storage := fun _ _ => 0
    next_observation_storage := fun _ _ => 0
    action_storage := fun _ => 0
    reward_storage := fun _ => 0
    done_storage := fun _ => 0
    _maxsize := size
    _next_idx := 0
    storage_size := 0 }

/-- Model of `EfficentReplayBuffer.add`: writes each modality's observation and next
observation plus action/reward/done at the cursor, advances the cursor
modulo the capacity, and grows `storage_size` until the capacity is hit. -/
def EfficentReplayBuffer.add (s : EfficentReplayBuffer) (obs nxtobs : ℕ → ℚ)
    (act rew done : ℚ) : EfficentReplayBuffer :=
  { s with
    observation_storage := fun m j =>
      if m < s.obs_num ∧ j = s._next_idx then obs m else s.observation_storage m j
    next_observation_storage := fun m j =>
      if m < s.obs_num ∧ j = s._next_idx then nxtobs m else s.next_observation_storage m j
    action_storage := Function.update s.action_storage s._next_idx act
    reward_storage := Function.update s.reward_storage s._next_idx rew
    done_storage := Function.update s.done_storage s._next_idx done
    _next_idx := (s._next_idx + 1) % s._maxsize
    storage_size :=
      if s.storage_size < s._maxsize then s.storage_size + 1 else s.storage_size }

/-- Model of `EfficentReplayBuffer._encode_sample(idxes)`.  The loop body runs once per
observation modality, and its first statement is `obses_t.append = ...` — an
*assignment to* the built-in list attribute `append` of the Python list
`obses_t`, not a call of it; attribute assignment on a `list` instance raises
`AttributeError`, so with at least one modality the method always raises on
the first iteration.  With no modality the loop body never runs and the
fancy-indexed columns are returned (observation columns empty). -/
def EfficentReplayBuffer.encode_sample (s : EfficentReplayBuffer) (idxes : List ℕ) :
    Except PyErr (List (List ℚ) × List ℚ × List ℚ × List (List ℚ) × List ℚ) :=
  match s.obs_num with
  | 0 => Except.ok ([], idxes.map s.action_storage, idxes.map s.reward_storage,
      [], idxes.map s.done_storage)
  | _ + 1 => Except.error PyErr.attributeError

/-- One index draw of `EfficentReplayBuffer.sample`:
`np.random.randint(0, self.storage_size - 1)` — numpy's `randint` excludes
the upper bound. -/
def EfficentReplayBuffer.sampleIdx (s : EfficentReplayBuffer) (r : ℕ) : Except PyErr ℤ :=
  npRandint 0 ((s.storage_size : ℤ) - 1) r

/-- Model of `EfficentReplayBuffer.sample(batch_size)` as a state transformer: draw
the indices, then encode; the method assigns no attribute, so the state is
returned unchanged. -/
def EfficentReplayBuffer.sample (s : EfficentReplayBuffer) (rs : List ℕ) :
    Except PyErr (List (List ℚ) × List ℚ × List ℚ × List (List ℚ) × List ℚ) ×
      EfficentReplayBuffer :=
  ((rs.mapM s.sampleIdx).bind (fun idxes => s.encode_sample (idxes.map Int.toNat)), s)

/-- An `EfficentReplayBuffer` with one observation modality, capacity 4,
after one `add`. -/
def effOne : EfficentReplayBuffer :=
  (EfficentReplayBuffer.init 4 1).add (fun _ => 0) (fun _ => 0) 0 0 0

/-- The same buffer after a second `add`: two stored transitions. -/
def effTwo : EfficentReplayBuffer :=
  effOne.add (fun _ => 1) (fun _ => 1) 1 1 0

/-- State of `PrioritizedReplayBuffer`.

Modelled from the spec where the trees are concerned: `SumSegmentTree` and
`MinSegmentTree` live in `torch_baselines/common/segment_tree.py`, which is
not among the provided sources.  Per the spec each tree is a fixed shape over
leaves with `set` a point update, the sum root the sum of the leaves and the
min root their minimum, every leaf initialised to the identity (0 for sum,
+∞ for min).  A tree is therefore embedded by its leaf assignment `ℕ → ℝ`;
the unwritten-leaf identity of the min tree (+∞) is not represented — see
`PrioritizedReplayBuffer.treeMin`. -/
structure PrioritizedReplayBuffer (α : Type) where
  _storage : List α
  _maxsize : ℕ
  _next_idx : ℕ
  _alpha : ℝ
  _it_sum : ℕ → ℝ
  _it_min : ℕ → ℝ
  _max_priority : ℝ

/-- Model of `PrioritizedReplayBuffer.__init__(size, alpha)`: empty ring storage,
zeroed leaves, `max_priority = 1.0`. -/
def PrioritizedReplayBuffer.init (α : Type) (size : ℕ) (a : ℝ) :
    PrioritizedReplayBuffer α :=
  { _storage := [], _maxsize := size, _next_idx := 0, _alpha := a,
    _it_sum := fun _ => 0, _it_min := fun _ => 0, _max_priority := 1 }

/-- Model of `PrioritizedReplayBuffer.add`: captures `idx = self._next_idx` *before*
delegating to the ring-buffer `add` (the parent's `add` returns `None`, so
reading the cursor is the only way to learn the written slot), then sets both
trees' leaf at `idx` to `max_priority ** alpha`. -/
noncomputable def PrioritizedReplayBuffer.add {α : Type}
    (s : PrioritizedReplayBuffer α) (data : α) : PrioritizedReplayBuffer α :=
  { _storage :=
      if s._storage.length ≤ s._next_idx then s._storage ++ [data]
      else s._storage.set s._next_idx data
    _maxsize := s._maxsize
    _next_idx := (s._next_idx + 1) % s._maxsize
    _alpha := s._alpha
    _it_sum := Function.update s._it_sum s._next_idx (s._max_priority ^ s._alpha)
    _it_min := Function.update s._it_min s._next_idx (s._max_priority ^ s._alpha)
    _max_priority := s._max_priority }

/-- Model of `np.max` over a nonempty list (`np.max([])` raises, so the `[]` value is
junk that every use guards against). -/
def listMax : List ℝ → ℝ
  | [] => 0
  | x :: xs => xs.foldl max x

/-- Model of `np.min` over a nonempty list, same convention as `listMax`. -/
def listMin : List ℝ → ℝ
  | [] => 0
  | x :: xs => xs.foldl min x

/-- The vectorized tree assignment `tree[idxes] = priorities ** alpha`:
elementwise point updates in order, a later duplicate index overwriting an
earlier one (numpy fancy-assignment semantics). -/
noncomputable def treeWrite (a : ℝ) (f : ℕ → ℝ) (ps : List (ℕ × ℝ)) : ℕ → ℝ :=
  ps.foldl (fun g q => Function.update g q.1 (q.2 ^ a)) f

/-- The asserts at the top of `update_priorities`: equal lengths, positive
priorities, indices inside `[0, len(storage))`.  `np.min` / `np.max` of an
empty array raise, so nonemptiness is part of the precondition. -/
def PrioritizedReplayBuffer.updateOk {α : Type} (s : PrioritizedReplayBuffer α)
    (idxes : List ℕ) (priorities : List ℝ) : Prop :=
  idxes.length = priorities.length ∧ priorities ≠ [] ∧
    (∀ p ∈ priorities, 0 < p) ∧ ∀ i ∈ idxes, i < s._storage.length

/-- Model of `PrioritizedReplayBuffer.update_priorities(idxes, priorities)` past its
asserts: write `priorities ** alpha` into both trees at `idxes`, then
`self._max_priority = max(self._max_priority, np.max(priorities)) * 0.95`. -/
noncomputable def PrioritizedReplayBuffer.update_priorities {α : Type}
    (s : PrioritizedReplayBuffer α) (idxes : List ℕ) (priorities : List ℝ) :
    PrioritizedReplayBuffer α :=
  { s with
    _it_sum := treeWrite s._alpha s._it_sum (idxes.zip priorities)
    _it_min := treeWrite s._alpha s._it_min (idxes.zip priorities)
    _max_priority := max s._max_priority (listMax priorities) * (19 / 20) }

/-- Modelled from the spec: both `self._it_sum.sum()` (the root, i.e. the sum
of all leaves) and `self._it_sum.sum(0, len(self._storage) - 1)` (the
inclusive range reduction over the occupied leaves).  The two agree because
a leaf outside the occupied range was never written and holds the sum
identity 0: `add` writes only the slot that thereby becomes occupied. -/
noncomputable def PrioritizedReplayBuffer.treeTotal {α : Type}
    (s : PrioritizedReplayBuffer α) : ℝ :=
  ∑ i in Finset.range s._storage.length, s._it_sum i

/-- Modelled from the spec: `self._it_min.min()` is the min-tree root, the
minimum over all leaves.  A leaf outside the occupied range was never
written and holds the min identity +∞, so the root equals the minimum over
the occupied range, which is what is computed here (+∞ itself is not
representable in `ℝ`). -/
noncomputable def PrioritizedReplayBuffer.treeMin {α : Type}
    (s : PrioritizedReplayBuffer α) : ℝ :=
  listMin ((List.range s._storage.length).map s._it_min)

open Classical in
/-- Modelled from the spec: `SumSegmentTree.find_prefixsum_idx(mass)`
descends from the root, going left on strict `mass < left_subtree_sum`, and
returns the leaf index `i` with `prefixsum(0..i-1) ≤ mass < prefixsum(0..i)`
— the least `i` whose inclusive prefix sum strictly exceeds `mass`.  For
`mass` at or beyond the total the spec leaves the result undefined (the
caller must guard); 0 is returned there. -/
noncomputable def find_prefixsum_idx (leaves : ℕ → ℝ) (mass : ℝ) : ℕ :=
  if h : ∃ i, mass < ∑ j in Finset.range (i + 1), leaves j
  then Nat.find h else 0

/-- The index-drawing part of `PrioritizedReplayBuffer.sample`
(`_sample_proportional`): each draw `u ∈ [0, 1)` of `np.random.random` is
scaled by `self._it_sum.sum(0, len(self._storage) - 1)` and resolved through
`find_prefixsum_idx`. -/
noncomputable def PrioritizedReplayBuffer.sampleIdxes {α : Type}
    (s : PrioritizedReplayBuffer α) (us : List ℝ) : List ℕ :=
  us.map (fun u => find_prefixsum_idx s._it_sum (u * s.treeTotal))

/-- The importance weight `sample` computes for slot `i`:
`(p_sample * len)^(-beta) / max_weight` with
`p_sample = it_sum[i] / it_sum.sum()`,
`max_weight = (p_min * len)^(-beta)`, `p_min = it_min.min() / it_sum.sum()`. -/
noncomputable def PrioritizedReplayBuffer.weightOf {α : Type}
    (s : PrioritizedReplayBuffer α) (beta : ℝ) (i : ℕ) : ℝ :=
  ((s._it_sum i / s.treeTotal) * (s._storage.length : ℝ)) ^ (-beta) /
    ((s.treeMin / s.treeTotal) * (s._storage.length : ℝ)) ^ (-beta)

/-- The `weights` array returned by `PrioritizedReplayBuffer.sample(batch,
beta)`, as a function of the `np.random.random` outcomes `us`. -/
noncomputable def PrioritizedReplayBuffer.sampleWeights {α : Type}
    (s : PrioritizedReplayBuffer α) (beta : ℝ) (us : List ℝ) : List ℝ :=
  (s.sampleIdxes us).map (s.weightOf beta)

/-- A two-slot prioritized buffer with `alpha = 1`, two records added (both
leaves `1 ** 1 = 1`), then `update_priorities([1], [3])`: leaves `(1, 3)`,
reached through the embedded operations themselves. -/
noncomputable def cexP : PrioritizedReplayBuffer ℕ :=
  (((PrioritizedReplayBuffer.init ℕ 2 1).add 5).add 6).update_priorities [1] [3]

/-- A transition record of the episodic buffers: the stored 7-tuple
`(obs_t, action, reward, nxtobs_t, done, (episode_key, position), terminal)`.
Observations are opaque (`α`); `eppos` is `len(self.episodes[episode_key])`
*after* the new slot index was appended, i.e. 1-based. -/
structure EpisodicRecord (α : Type) where
  obs : α
  act : ℤ
  reward : ℚ
  nxtobs : α
  done : Bool
  epkey : ℕ × ℕ
  eppos : ℕ
  terminal : Bool
  deriving DecidableEq

/-- Lookup in the episode index, embedded as an association list in
insertion order (a Python dict has unique keys; `epSet` preserves that). -/
def epLookup {β : Type} (m : List ((ℕ × ℕ) × β)) (k : ℕ × ℕ) : Option β :=
  match m with
  | [] => none
  | q :: t => if q.1 = k then some q.2 else epLookup t k

/-- Model of `dict[k] = v`: update in place if the key is present, else append. -/
def epSet {β : Type} (m : List ((ℕ × ℕ) × β)) (k : ℕ × ℕ) (v : β) :
    List ((ℕ × ℕ) × β) :=
  match m with
  | [] => [(k, v)]
  | q :: t => if q.1 = k then (k, v) :: t else q :: epSet t k v

/-- Model of `del dict[k]` once the key is known present: drop its (unique) entry. -/
def epDel {β : Type} (m : List ((ℕ × ℕ) × β)) (k : ℕ × ℕ) :
    List ((ℕ × ℕ) × β) :=
  match m with
  | [] => []
  | q :: t => if q.1 = k then t else q :: epDel t k

/-- State of `EpisodicReplayBuffer`: the ring storage of records, the episode
index `self.episodes`, the per-worker episode counter `self.worker_ep`
(embedded as a total function), and the n-step parameters. -/
structure EpisodicReplayBuffer (α : Type) where
  _storage : List (EpisodicRecord α)
  _maxsize : ℕ
  _next_idx : ℕ
  episodes : List ((ℕ × ℕ) × List ℕ)
  worker_ep : ℕ → ℕ
  n_step : ℕ
  gamma : ℚ

/-- Model of `EpisodicReplayBuffer.__init__(size, worker_size, n_step, gamma)`. -/
def EpisodicReplayBuffer.init (α : Type) (size n : ℕ) (g : ℚ) :
    EpisodicReplayBuffer α :=
  { _storage := [], _maxsize := size, _next_idx := 0, episodes := [],
    worker_ep := fun _ => 0, n_step := n, gamma := g }

/-- Model of `EpisodicReplayBuffer.add(obs_t, action, reward, nxtobs_t, done, worker,
terminal)`, step by step as in the source: compute the episode key from the
worker's counter; create its index list if absent; append the cursor slot to
it; build the record carrying `(episode_key, len(list-after-append))`; then
either append to storage, or overwrite the cursor slot — deleting the
overwritten record's whole episode entry first when that record was
terminal (`del` raises `KeyError` if the key is already absent); advance the
cursor; finally bump the worker's episode counter if `terminal`. -/
def EpisodicReplayBuffer.add {α : Type} (s : EpisodicReplayBuffer α) (obs : α)
    (act : ℤ) (reward : ℚ) (nxtobs : α) (done : Bool) (worker : ℕ)
    (terminal : Bool) : Except PyErr (EpisodicReplayBuffer α) :=
  let episode_key := (worker, s.worker_ep worker)
  let eps0 := match epLookup s.episodes episode_key with
    | none => epSet s.episodes episode_key []
    | some _ => s.episodes
  let lst1 := (epLookup eps0 episode_key).getD [] ++ [s._next_idx]
  let eps1 := epSet eps0 episode_key lst1
  let data : EpisodicRecord α :=
    { obs := obs, act := act, reward := reward, nxtobs := nxtobs, done := done,
      epkey := episode_key, eppos := lst1.length, terminal := terminal }
  let finish := fun (stor : List (EpisodicRecord α))
      (eps : List ((ℕ × ℕ) × List ℕ)) =>
    Except.ok
      { _storage := stor, _maxsize := s._maxsize,
        _next_idx := (s._next_idx + 1) % s._maxsize, episodes := eps,
        worker_ep :=
          if terminal then Function.update s.worker_ep worker (s.worker_ep worker + 1)
          else s.worker_ep,
        n_step := s.n_step, gamma := s.gamma }
  if h : s._next_idx < s._storage.length then
    if (s._storage.get ⟨s._next_idx, h⟩).terminal then
      match epLookup eps1 (s._storage.get ⟨s._next_idx, h⟩).epkey with
      | none => Except.error PyErr.keyError
      | some _ =>
          finish (s._storage.set s._next_idx data)
            (epDel eps1 (s._storage.get ⟨s._next_idx, h⟩).epkey)
    else finish (s._storage.set s._next_idx data) eps1
  else finish (s._storage ++ [data]) eps1

/-- A sequence of `add` calls for worker 0, all non-terminal: one in-progress
episode, oldest first.  Each input is `(obs, action, reward, nxtobs, done)`. -/
def EpisodicReplayBuffer.addSeq {α : Type} (s : EpisodicReplayBuffer α)
    (ts : List (α × ℤ × ℚ × α × Bool)) : Except PyErr (EpisodicReplayBuffer α) :=
  ts.foldlM
    (fun st t => st.add t.1 t.2.1 t.2.2.1 t.2.2.2.1 t.2.2.2.2 0 false) s

/-- The body of `EpisodicReplayBuffer._encode_sample` for one sampled slot
`i`: read the record, look up its episode's slot list, take the `n_step`
slot indices *after* the record's (1-based) position, and fold:
`reward += gamma_running * r; gamma_running *= self.gamma`, with
`nxtobs_t`/`done` rebound to the values of each folded record in turn. -/
def EpisodicReplayBuffer.encodeOne {α : Type} (s : EpisodicReplayBuffer α)
    (i : ℕ) : Except PyErr (α × ℤ × ℚ × α × Bool) :=
  match s._storage[i]? with
  | none => Except.error PyErr.indexError
  | some data =>
    match epLookup s.episodes data.epkey with
    | none => Except.error PyErr.keyError
    | some epList =>
      (((epList.drop data.eppos).take s.n_step).foldlM
          (fun (acc : ℚ × ℚ × α × Bool) (nidx : ℕ) =>
            (match s._storage[nidx]? with
             | none => Except.error PyErr.indexError
             | some d =>
                 Except.ok (acc.1 + acc.2.1 * d.reward, acc.2.1 * s.gamma,
                   d.nxtobs, d.done) : Except PyErr (ℚ × ℚ × α × Bool)))
          (data.reward, s.gamma, data.nxtobs, data.done)).map
        (fun acc => (data.obs, data.act, acc.1, acc.2.2.1, acc.2.2.2))

/-- The reward field of the `k`-th input transition of an `addSeq` list
(0 outside the list). -/
def rewAt {α : Type} (ts : List (α × ℤ × ℚ × α × Bool)) (k : ℕ) : ℚ :=
  ((ts[k]?).map (fun t => t.2.2.1)).getD 0

/-- The storage record the `j`-th `addSeq` input becomes: episode key
`(0, 0)`, 1-based episode position `j + 1`, non-terminal. -/
def epRec {α : Type} (j : ℕ) (t : α × ℤ × ℚ × α × Bool) : EpisodicRecord α :=
  { obs := t.1, act := t.2.1, reward := t.2.2.1, nxtobs := t.2.2.2.1,
    done := t.2.2.2.2, epkey := (0, 0), eppos := j + 1, terminal := false }

/-- The storage contents after `addSeq`, first record at position `j`. -/
def epStorage {α : Type} (j : ℕ) :
    List (α × ℤ × ℚ × α × Bool) → List (EpisodicRecord α)
  | [] => []
  | t :: ts => epRec j t :: epStorage (j + 1) ts

/-- The terminal record of a finished one-transition episode of worker 0. -/
def crec : EpisodicRecord ℕ :=
  { obs := 0, act := 0, reward := 1, nxtobs := 0, done := true,
    epkey := (0, 0), eppos := 1, terminal := true }

/-- A capacity-1 episodic buffer holding `crec`, its episode `(0, 0)`
indexed, worker 0 already on its next episode. -/
def c6state : EpisodicReplayBuffer ℕ :=
  { _storage := [crec], _maxsize := 1, _next_idx := 0,
    episodes := [((0, 0), [0])], worker_ep := fun _ => 1,
    n_step := 1, gamma := 1 / 2 }

/-- The record that the second `add` of the C6 scenario writes. -/
def crec2 : EpisodicRecord ℕ :=
  { obs := 9, act := 0, reward := 1, nxtobs := 9, done := false,
    epkey := (0, 1), eppos := 1, terminal := false }

/-- State `c6state` after one more `add` (worker 0, non-terminal), whose write
overwrites the terminal `crec`: episode `(0, 0)` is gone from the index. -/
def c6after : EpisodicReplayBuffer ℕ :=
  { _storage := [crec2], _maxsize := 1, _next_idx := (0 + 1) % 1,
    episodes := [((0, 1), [0])], worker_ep := fun _ => 1,
    n_step := 1, gamma := 1 / 2 }

/-- The spec's own n-step example, as `addSeq` inputs: one episode with
rewards `[1, 1, 1, 1]` and distinguishable observations. -/
def c1ts : List (ℕ × ℤ × ℚ × ℕ × Bool) :=
  [(1, 0, 1, 11, false), (2, 0, 1, 12, false), (3, 0, 1, 13, false),
   (4, 0, 1, 14, true)]

/-- The episodic buffer state reached by adding `c1ts` into a fresh buffer
of capacity 10 with `n_step = 3`, `gamma = 1/2`. -/
def c1S : EpisodicReplayBuffer ℕ :=
  { _storage := epStorage 0 c1ts, _maxsize := 10, _next_idx := c1ts.length % 10,
    episodes := [((0, 0), List.range c1ts.length)], worker_ep := fun _ => 0,
    n_step := 3, gamma := 1 / 2 }

/-- Fact: `add` never changes `_maxsize`, so neither does a sequence of adds. -/
theorem ReplayBuffer.addAll_maxsize {α : Type} (s : ReplayBuffer α) (xs : List α) :
    (s.addAll xs)._maxsize = s._maxsize := by
  induction xs generalizing s with
  | nil => rfl
  | cons x xs ih => simpa [ReplayBuffer.addAll] using ih (s.add x)

/-- Ring-buffer invariant established by any sequence of `add` calls on a
fresh buffer: the logical length is `min n capacity`, the cursor is
`n % capacity`, and every occupied slot `j` holds the record of the *latest*
add whose (0-based) sequence number is congruent to `j` — a member of the
last `capacity` adds. -/
theorem ReplayBuffer.addAll_inv {α : Type} (c : ℕ) (hc : 0 < c) (xs : List α) :
    ((ReplayBuffer.init α c).addAll xs).length = min xs.length c ∧
    ((ReplayBuffer.init α c).addAll xs)._next_idx = xs.length % c ∧
    ∀ j, j < min xs.length c →
      ∃ m, m < xs.length ∧ xs.length ≤ m + c ∧ m % c = j ∧
        ((ReplayBuffer.init α c).addAll xs)._storage[j]? = xs[m]? := by
  induction xs using List.reverseRecOn with
  | nil =>
      refine ⟨by simp [ReplayBuffer.addAll, ReplayBuffer.init, ReplayBuffer.length],
        by simp [ReplayBuffer.addAll, ReplayBuffer.init], ?_⟩
      intro j hj
      simp [ReplayBuffer.addAll, ReplayBuffer.init] at hj
  | append_singleton ys y ih =>
      obtain ⟨ihlen, ihidx, ihget⟩ := ih
      have hfold : (ReplayBuffer.init α c).addAll (ys ++ [y]) =
          ((ReplayBuffer.init α c).addAll ys).add y := by
        simp [ReplayBuffer.addAll]
      set S := (ReplayBuffer.init α c).addAll ys with hS
      have hmax : S._maxsize = c := ReplayBuffer.addAll_maxsize ..
      have hlen' : (ys ++ [y]).length = ys.length + 1 := by simp
      have hmod : (ys.length % c + 1) % c = (ys.length + 1) % c := Nat.mod_add_mod ..
      rcases lt_or_le ys.length c with hcase | hcase
      · -- still filling: the cursor is at the end, `add` appends
        have hSlen : S._storage.length = ys.length := by
          simpa [ReplayBuffer.length, Nat.min_eq_left hcase.le] using ihlen
        have hSidx : S._next_idx = ys.length := by
          simpa [Nat.mod_eq_of_lt hcase] using ihidx
        have hadd : S.add y =
            { _storage := S._storage ++ [y], _maxsize := S._maxsize,
              _next_idx := (S._next_idx + 1) % S._maxsize } := by
          simp [ReplayBuffer.add, hSlen, hSidx]
        refine ⟨?_, ?_, ?_⟩
        · simp [hfold, hadd, ReplayBuffer.length, hSlen, hlen',
            Nat.min_eq_left (Nat.succ_le_of_lt hcase)]
        · simp only [hfold, hadd, hlen', hmax, hSidx]
        · intro j hj
          have hj' : j < ys.length + 1 := by
            have := Nat.min_le_left (ys ++ [y]).length c
            omega
          rcases lt_or_eq_of_le (Nat.lt_succ_iff.mp hj') with hjlt | hjeq
          · obtain ⟨m, hm1, hm2, hm3, hm4⟩ :=
              ihget j (by simp [Nat.min_eq_left hcase.le]; omega)
            refine ⟨m, by omega, by omega, hm3, ?_⟩
            have hjS : j < S._storage.length := by omega
            rw [hfold, hadd]
            simp only
            rw [List.getElem?_append_left hjS, List.getElem?_append_left hm1]
            exact hm4
          · refine ⟨ys.length, by omega, by omega, ?_, ?_⟩
            · rw [← hjeq] at hcase ⊢
              exact Nat.mod_eq_of_lt hcase
            · rw [hfold, hadd]
              simp only
              rw [hjeq, ← hSlen, List.getElem?_concat_length, hSlen,
                List.getElem?_concat_length]
      · -- wrapped: the cursor points inside the storage, `add` overwrites
        have hSlen : S._storage.length = c := by
          simpa [ReplayBuffer.length, Nat.min_eq_right hcase] using ihlen
        have hSidx : S._next_idx = ys.length % c := ihidx
        have hidxlt : S._next_idx < S._storage.length := by
          rw [hSlen, hSidx]; exact Nat.mod_lt _ hc
        have hadd : S.add y =
            { _storage := S._storage.set S._next_idx y, _maxsize := S._maxsize,
              _next_idx := (S._next_idx + 1) % S._maxsize } := by
          simp only [ReplayBuffer.add, if_neg (Nat.not_le.mpr hidxlt)]
        refine ⟨?_, ?_, ?_⟩
        · simp [hfold, hadd, ReplayBuffer.length, hSlen, hlen',
            Nat.min_eq_right (le_trans hcase (Nat.le_succ _))]
        · simp only [hfold, hadd, hlen', hmax, hSidx, hmod]
        · intro j hj
          have hjc : j < c := by
            have := Nat.min_le_right (ys ++ [y]).length c
            omega
          by_cases hje : j = S._next_idx
          · refine ⟨ys.length, by omega, by omega, by rw [hje, hSidx], ?_⟩
            rw [hfold, hadd]
            simp only [hje]
            rw [List.getElem?_set_self hidxlt, List.getElem?_concat_length]
          · obtain ⟨m, hm1, hm2, hm3, hm4⟩ :=
              ihget j (by simp [Nat.min_eq_right hcase]; omega)
            have hmne : ys.length < m + c := by
              rcases lt_or_eq_of_le hm2 with h | h
              · exact h
              · exfalso
                apply hje
                rw [hSidx, ← hm3, h]
                simp [Nat.add_mod_right]
            refine ⟨m, by omega, by omega, hm3, ?_⟩
            rw [hfold, hadd]
            simp only
            rw [List.getElem?_set_ne (fun h => hje h.symm),
              List.getElem?_append_left hm1]
            exact hm4

/-- C3: for every capacity `c > 0` and every sequence of `add` calls into a
fresh `ReplayBuffer`: after `k ≤ c` adds the length is `k`; beyond that it
stays `c`; the cursor is always (number of adds) mod `c`; slot `j` holds the
latest add whose 0-based sequence number is ≡ `j` (mod `c`), which lies among
the last `c` adds — so every stored value is one of the last `c` added values
and the oldest add is overwritten, no longer retrievable. -/
theorem c3_ring_fifo {α : Type} (c : ℕ) (hc : 0 < c) (xs : List α) :
    ((ReplayBuffer.init α c).addAll xs).length = min xs.length c ∧
    ((ReplayBuffer.init α c).addAll xs)._next_idx = xs.length % c ∧
    (∀ j, j < min xs.length c →
      ∃ m, m < xs.length ∧ xs.length ≤ m + c ∧ m % c = j ∧
        ((ReplayBuffer.init α c).addAll xs)._storage[j]? = xs[m]?) ∧
    ∀ x ∈ ((ReplayBuffer.init α c).addAll xs)._storage,
      ∃ m, m < xs.length ∧ xs.length ≤ m + c ∧ xs[m]? = some x := by
  obtain ⟨h1, h2, h3⟩ := ReplayBuffer.addAll_inv c hc xs
  refine ⟨h1, h2, h3, ?_⟩
  intro x hx
  obtain ⟨j, hget⟩ := List.mem_iff_getElem?.mp hx
  have hj : j < min xs.length c := by
    have := (List.getElem?_eq_some.mp hget).1
    rw [← h1, ReplayBuffer.length]
    exact this
  obtain ⟨m, hm1, hm2, _, hm4⟩ := h3 j hj
  exact ⟨m, hm1, hm2, by rw [← hm4, hget]⟩

/-- C3 witness: capacity 2, three adds. -/
theorem c3_ring_fifo_witness :
    ((ReplayBuffer.init ℕ 2).addAll [10, 20, 30]).length = min 3 2 ∧
    ((ReplayBuffer.init ℕ 2).addAll [10, 20, 30])._next_idx = 3 % 2 ∧
    (∀ j, j < min 3 2 →
      ∃ m, m < 3 ∧ 3 ≤ m + 2 ∧ m % 2 = j ∧
        ((ReplayBuffer.init ℕ 2).addAll [10, 20, 30])._storage[j]? =
          [10, 20, 30][m]?) ∧
    ∀ x ∈ ((ReplayBuffer.init ℕ 2).addAll [10, 20, 30])._storage,
      ∃ m, m < 3 ∧ 3 ≤ m + 2 ∧ [10, 20, 30][m]? = some x :=
  c3_ring_fifo 2 (by decide) [10, 20, 30]

/-- C4 counterexample: on a fresh buffer the pre-advance cursor is 0, yet a
call of `add` evaluates to `None` (the method body has no `return`
statement), not to the slot index it wrote. -/
theorem c4_add_returns_none_counterexample :
    (ReplayBuffer.init ℕ 4).addReturn 7 = none ∧
    (ReplayBuffer.init ℕ 4).addReturn 7 ≠ some (ReplayBuffer.init ℕ 4)._next_idx := by
  exact ⟨rfl, by decide⟩

/-- C4 (amended): `add` returns `None`; the slot it writes is the
pre-advance cursor (for any state whose cursor is within
`[0, storage length]`, as in every reachable state), and the priority
variant obtains that index by reading the cursor *before* delegating,
keying both tree-leaf writes (`max_priority ** alpha`) at it. -/
theorem c4_add_slot_amended {α : Type} (s : ReplayBuffer α) (x : α)
    (h : s._next_idx ≤ s._storage.length)
    (ps : PrioritizedReplayBuffer α) (y : α) :
    (s.add x)._storage[s._next_idx]? = some x ∧
    s.addReturn x = none ∧
    (ps.add y)._it_sum ps._next_idx = ps._max_priority ^ ps._alpha ∧
    (ps.add y)._it_min ps._next_idx = ps._max_priority ^ ps._alpha := by
  refine ⟨?_, rfl, ?_, ?_⟩
  · rcases lt_or_eq_of_le h with h' | h'
    · simp only [ReplayBuffer.add, if_neg (Nat.not_le.mpr h')]
      exact List.getElem?_set_self h'
    · simp only [ReplayBuffer.add, if_pos (le_of_eq h'.symm)]
      rw [h', List.getElem?_concat_length]
  · simp [PrioritizedReplayBuffer.add, Function.update_same]
  · simp [PrioritizedReplayBuffer.add, Function.update_same]

/-- C4 amended witness: fresh buffers, cursor 0. -/
theorem c4_add_slot_amended_witness :
    ((ReplayBuffer.init ℕ 4).add 7)._storage[(ReplayBuffer.init ℕ 4)._next_idx]? =
      some 7 ∧
    (ReplayBuffer.init ℕ 4).addReturn 7 = none ∧
    ((PrioritizedReplayBuffer.init ℕ 4 1).add 9)._it_sum
        (PrioritizedReplayBuffer.init ℕ 4 1)._next_idx =
      (PrioritizedReplayBuffer.init ℕ 4 1)._max_priority ^
        (PrioritizedReplayBuffer.init ℕ 4 1)._alpha ∧
    ((PrioritizedReplayBuffer.init ℕ 4 1).add 9)._it_min
        (PrioritizedReplayBuffer.init ℕ 4 1)._next_idx =
      (PrioritizedReplayBuffer.init ℕ 4 1)._max_priority ^
        (PrioritizedReplayBuffer.init ℕ 4 1)._alpha :=
  c4_add_slot_amended (ReplayBuffer.init ℕ 4) 7 (by decide)
    (PrioritizedReplayBuffer.init ℕ 4 1) 9

/-- C9 counterexample: on an empty buffer `sample` fails with the
`ValueError` that `random.randint(0, -1)` raises — not with the spec's
`EmptyBufferError` (no such class exists in the code) — and returns the
state unchanged. -/
theorem c9_sample_empty_counterexample :
    (ReplayBuffer.init ℕ 4).sampleStep [0] =
      (Except.error PyErr.valueError, ReplayBuffer.init ℕ 4) ∧
    (Except.error PyErr.valueError : Except PyErr (List ℤ)) ≠
      Except.error PyErr.emptyBufferError := by
  refine ⟨rfl, ?_⟩
  intro h
  simp at h

/-- C9 (amended): for every batch size ≥ 1, `sample` on an empty buffer
fails — with `ValueError` from the empty `randint` range rather than a
dedicated `EmptyBufferError` — and leaves the buffer state unchanged. -/
theorem c9_sample_empty_amended {α : Type} (s : ReplayBuffer α)
    (h : s._storage.length = 0) (r : ℕ) (rs : List ℕ) :
    s.sampleStep (r :: rs) = (Except.error PyErr.valueError, s) := by
  have hneg : ((s._storage.length : ℤ) - 1) < 0 := by rw [h]; norm_num
  have hone : pyRandint 0 ((s._storage.length : ℤ) - 1) r =
      Except.error PyErr.valueError := by
    simp [pyRandint, hneg]
  simp only [ReplayBuffer.sampleStep, ReplayBuffer.sampleIdxes]
  rw [List.mapM_cons, hone]
  rfl

/-- C9 amended witness. -/
theorem c9_sample_empty_amended_witness :
    (ReplayBuffer.init ℕ 4).sampleStep (0 :: []) =
      (Except.error PyErr.valueError, ReplayBuffer.init ℕ 4) :=
  c9_sample_empty_amended (ReplayBuffer.init ℕ 4) rfl 0 []

/-- C5, evaluated at the failing input: `EfficentReplayBuffer.sample` draws
with `np.random.randint(0, self.storage_size - 1)`, whose upper bound is
*exclusive*.  With two stored transitions every outcome of the random source
yields index 0 — index 1, although in `[0, length)`, is drawn for no outcome,
against the claimed uniformity over `[0, length)`; with one stored transition
the draw raises `ValueError` outright. -/
theorem c5_efficent_sample_misses_newest :
    effTwo.storage_size = 2 ∧
    (∀ r : ℕ, effTwo.sampleIdx r = Except.ok 0) ∧
    (∀ r : ℕ, effTwo.sampleIdx r ≠ Except.ok 1) ∧
    (∀ r : ℕ, effOne.sampleIdx r = Except.error PyErr.valueError) := by
  have h2 : effTwo.storage_size = 2 := rfl
  have h1 : effOne.storage_size = 1 := rfl
  have hok : ∀ r : ℕ, effTwo.sampleIdx r = Except.ok 0 := by
    intro r
    simp [EfficentReplayBuffer.sampleIdx, npRandint, h2, Int.emod_one]
  refine ⟨h2, hok, ?_, ?_⟩
  · intro r
    rw [hok r]
    intro h
    simp at h
  · intro r
    simp [EfficentReplayBuffer.sampleIdx, npRandint, h1]

/-- C10: with at least one observation modality, `_encode_sample` always
raises — its loop's first statement assigns to the read-only list attribute
`append`, an `AttributeError` — for every non-empty list of in-range slot
indices, hence `sample` never returns a batch, and the buffer state is left
unchanged. -/
theorem c10_encode_sample_always_raises (s : EfficentReplayBuffer)
    (h1 : 1 ≤ s.obs_num) (idxes : List ℕ) (h2 : idxes ≠ [])
    (h3 : ∀ i ∈ idxes, i < s.storage_size) :
    s.encode_sample idxes = Except.error PyErr.attributeError ∧
    ∀ rs : List ℕ, (s.sample rs).2 = s ∧
      ∀ b, (s.sample rs).1 ≠ Except.ok b := by
  obtain ⟨k, hk⟩ : ∃ k, s.obs_num = k + 1 := ⟨s.obs_num - 1, by omega⟩
  have henc : ∀ l : List ℕ, s.encode_sample l = Except.error PyErr.attributeError := by
    intro l
    unfold EfficentReplayBuffer.encode_sample
    rw [hk]
  refine ⟨henc idxes, ?_⟩
  intro rs
  refine ⟨rfl, ?_⟩
  intro b hb
  simp only [EfficentReplayBuffer.sample] at hb
  rcases hmm : rs.mapM s.sampleIdx with e | v
  · rw [hmm] at hb
    simp [Except.bind] at hb
  · rw [hmm] at hb
    simp only [Except.bind] at hb
    rw [henc (v.map Int.toNat)] at hb
    cases hb

/-- C10 witness: the two-transition single-modality buffer, index list `[0]`. -/
theorem c10_encode_sample_always_raises_witness :
    effTwo.encode_sample [0] = Except.error PyErr.attributeError ∧
    ∀ rs : List ℕ, (effTwo.sample rs).2 = effTwo ∧
      ∀ b, (effTwo.sample rs).1 ≠ Except.ok b :=
  c10_encode_sample_always_raises effTwo (by decide) [0] (by decide) (by decide)

/-- A write list that never mentions index `i` leaves leaf `i` unchanged. -/
theorem treeWrite_not_mem (a : ℝ) (f : ℕ → ℝ) (ps : List (ℕ × ℝ)) (i : ℕ)
    (h : i ∉ ps.map Prod.fst) : treeWrite a f ps i = f i := by
  induction ps generalizing f with
  | nil => rfl
  | cons q t ih =>
      simp only [List.map_cons, List.mem_cons] at h
      push_neg at h
      simp only [treeWrite, List.foldl_cons]
      have := ih (Function.update f q.1 (q.2 ^ a)) h.2
      simp only [treeWrite] at this
      rw [this, Function.update_noteq (fun he => h.1 he) _ _]

/-- After a write list containing `(i, p)` in which every write to `i`
carries the value `p`, leaf `i` holds `p ^ a`. -/
theorem treeWrite_mem (a : ℝ) (f : ℕ → ℝ) (ps : List (ℕ × ℝ)) (i : ℕ) (p : ℝ)
    (hmem : (i, p) ∈ ps) (hcons : ∀ q ∈ ps, q.1 = i → q.2 = p) :
    treeWrite a f ps i = p ^ a := by
  induction ps generalizing f with
  | nil => cases hmem
  | cons q t ih =>
      simp only [treeWrite, List.foldl_cons]
      by_cases hi : i ∈ t.map Prod.fst
      · obtain ⟨q', hq't, hq'1⟩ := List.mem_map.mp hi
        have hq'2 : q'.2 = p := hcons q' (List.mem_cons_of_mem _ hq't) hq'1
        have hmem' : (i, p) ∈ t := by
          have : q' = (i, p) := by
            rw [← hq'1, ← hq'2]
          rw [← this]
          exact hq't
        have := ih (Function.update f q.1 (q.2 ^ a)) hmem'
          (fun r hr h1 => hcons r (List.mem_cons_of_mem _ hr) h1)
        simpa only [treeWrite] using this
      · have hq : q.1 = i ∧ q.2 = p := by
          rcases List.mem_cons.mp hmem with h | h
          · exact ⟨congrArg Prod.fst h.symm, congrArg Prod.snd h.symm⟩
          · exact absurd (List.mem_map.mpr ⟨(i, p), h, rfl⟩) hi
        have := treeWrite_not_mem a (Function.update f q.1 (q.2 ^ a)) t i hi
        simp only [treeWrite] at this ⊢
        rw [this, hq.1, Function.update_same, hq.2]

/-- C7: past its asserts, `update_priorities` sets
`max_priority := max(old_max_priority, max(priorities)) * 0.95` — the decay
factor applied on this call as on every call — and writes
`priority ** alpha` into both trees' leaf at each given index.  Duplicate
indices in one call must carry equal priorities for "the corresponding
priority" to be well defined (numpy's fancy assignment is last-wins). -/
theorem c7_update_priorities_spec {α : Type} (s : PrioritizedReplayBuffer α)
    (idxes : List ℕ) (priorities : List ℝ)
    (hok : s.updateOk idxes priorities)
    (hcons : ∀ i p q, (i, p) ∈ idxes.zip priorities →
      (i, q) ∈ idxes.zip priorities → p = q) :
    (s.update_priorities idxes priorities)._max_priority =
      max s._max_priority (listMax priorities) * (19 / 20) ∧
    ∀ i p, (i, p) ∈ idxes.zip priorities →
      (s.update_priorities idxes priorities)._it_sum i = p ^ s._alpha ∧
      (s.update_priorities idxes priorities)._it_min i = p ^ s._alpha := by
  refine ⟨rfl, ?_⟩
  intro i p hip
  have hc : ∀ q ∈ idxes.zip priorities, q.1 = i → q.2 = p := by
    intro q hq h1
    have : (i, q.2) ∈ idxes.zip priorities := by
      have : q = (i, q.2) := by rw [← h1]
      rw [← this]
      exact hq
    exact hcons i q.2 p this hip
  exact ⟨treeWrite_mem _ _ _ _ _ hip hc, treeWrite_mem _ _ _ _ _ hip hc⟩

/-- C7 witness: a one-slot buffer holding one record, updated at index 0
with priority 2. -/
theorem c7_update_priorities_spec_witness :
    ((((PrioritizedReplayBuffer.init ℕ 1 1).add 5).update_priorities [0]
        [2])._max_priority =
      max ((PrioritizedReplayBuffer.init ℕ 1 1).add 5)._max_priority
        (listMax [2]) * (19 / 20)) ∧
    ∀ i p, (i, p) ∈ (([0] : List ℕ).zip ([2] : List ℝ)) →
      (((PrioritizedReplayBuffer.init ℕ 1 1).add 5).update_priorities [0]
          [2])._it_sum i =
        p ^ ((PrioritizedReplayBuffer.init ℕ 1 1).add 5)._alpha ∧
      (((PrioritizedReplayBuffer.init ℕ 1 1).add 5).update_priorities [0]
          [2])._it_min i =
        p ^ ((PrioritizedReplayBuffer.init ℕ 1 1).add 5)._alpha := by
  refine c7_update_priorities_spec _ [0] [2] ⟨rfl, by simp, ?_, ?_⟩ ?_
  · intro p hp
    simp only [List.mem_singleton] at hp
    rw [hp]; norm_num
  · intro i hi
    simp only [List.mem_singleton] at hi
    rw [hi]
    show 0 < (([5] : List ℕ)).length
    decide
  · intro i p q h1 h2
    simp only [List.zip_cons_cons, List.zip_nil_right, List.mem_singleton,
      Prod.mk.injEq] at h1 h2
    rw [h1.2, h2.2]

/-- C8: `update_priorities([i], [p])` twice with the same arguments — both
calls meeting the preconditions — leaves the sum tree and the min tree
unchanged after the second call relative to after the first: the repeated
point write is idempotent.  (`max_priority`, not part of the claim, does
decay again.) -/
theorem c8_update_priorities_idempotent {α : Type}
    (s : PrioritizedReplayBuffer α) (i : ℕ) (p : ℝ)
    (hi : i < s._storage.length) (hp : 0 < p) :
    ((s.update_priorities [i] [p]).update_priorities [i] [p])._it_sum =
      (s.update_priorities [i] [p])._it_sum ∧
    ((s.update_priorities [i] [p]).update_priorities [i] [p])._it_min =
      (s.update_priorities [i] [p])._it_min := by
  constructor <;>
    simp [PrioritizedReplayBuffer.update_priorities, treeWrite,
      Function.update_idem]

/-- C8 witness: one-slot buffer, index 0, priority 2, both preconditions
concrete. -/
theorem c8_update_priorities_idempotent_witness :
    ((((PrioritizedReplayBuffer.init ℕ 1 1).add 5).update_priorities [0]
          [2]).update_priorities [0] [2])._it_sum =
      (((PrioritizedReplayBuffer.init ℕ 1 1).add 5).update_priorities [0]
          [2])._it_sum ∧
    ((((PrioritizedReplayBuffer.init ℕ 1 1).add 5).update_priorities [0]
          [2]).update_priorities [0] [2])._it_min =
      (((PrioritizedReplayBuffer.init ℕ 1 1).add 5).update_priorities [0]
          [2])._it_min := by
  refine c8_update_priorities_idempotent _ 0 2 ?_ (by norm_num)
  show 0 < (([5] : List ℕ)).length
  decide

/-- Fact: `foldl min` is bounded by its seed. -/
theorem foldl_min_le_seed (xs : List ℝ) (x : ℝ) : xs.foldl min x ≤ x := by
  induction xs generalizing x with
  | nil => exact le_refl x
  | cons a t ih =>
      calc t.foldl min (min x a) ≤ min x a := ih (min x a)
        _ ≤ x := min_le_left _ _

/-- Fact: `foldl min` is a lower bound for its seed and every element. -/
theorem foldl_min_le (xs : List ℝ) (x y : ℝ) (hy : y ∈ x :: xs) :
    xs.foldl min x ≤ y := by
  induction xs generalizing x with
  | nil =>
      rcases List.mem_cons.mp hy with h | h
      · rw [h]; exact le_refl x
      · cases h
  | cons a t ih =>
      rcases List.mem_cons.mp hy with h | h
      · calc t.foldl min (min x a) ≤ min x a := foldl_min_le_seed t _
          _ ≤ x := min_le_left _ _
          _ = y := h.symm
      · rcases List.mem_cons.mp h with h' | h'
        · calc t.foldl min (min x a) ≤ min x a := foldl_min_le_seed t _
            _ ≤ a := min_le_right _ _
            _ = y := h'.symm
        · exact ih (min x a) (List.mem_cons_of_mem _ h')

/-- Fact: `foldl min` attains its value at the seed or at some element. -/
theorem foldl_min_mem (xs : List ℝ) (x : ℝ) : xs.foldl min x ∈ x :: xs := by
  induction xs generalizing x with
  | nil => exact List.mem_cons_self _ _
  | cons a t ih =>
      have := ih (min x a)
      rcases List.mem_cons.mp this with h | h
      · rcases min_choice x a with hm | hm
        · rw [List.foldl_cons, h, hm]
          exact List.mem_cons_self _ _
        · rw [List.foldl_cons, h, hm]
          exact List.mem_cons_of_mem _ (List.mem_cons_self _ _)
      · exact List.mem_cons_of_mem _ (List.mem_cons_of_mem _ h)

/-- Fact: `listMin` bounds every element from below. -/
theorem listMin_le {l : List ℝ} {y : ℝ} (hy : y ∈ l) : listMin l ≤ y := by
  cases l with
  | nil => cases hy
  | cons x xs => exact foldl_min_le xs x y hy

/-- Fact: `listMin` of a nonempty list is one of its elements. -/
theorem listMin_mem {l : List ℝ} (hl : l ≠ []) : listMin l ∈ l := by
  cases l with
  | nil => cases hl rfl
  | cons x xs => exact foldl_min_mem xs x

/-- Fact: `foldl max` dominates its seed. -/
theorem le_foldl_max_seed (xs : List ℝ) (x : ℝ) : x ≤ xs.foldl max x := by
  induction xs generalizing x with
  | nil => exact le_refl x
  | cons a t ih =>
      calc x ≤ max x a := le_max_left _ _
        _ ≤ t.foldl max (max x a) := ih (max x a)

/-- Fact: `foldl max` bounds its seed and every element from above. -/
theorem le_foldl_max (xs : List ℝ) (x y : ℝ) (hy : y ∈ x :: xs) :
    y ≤ xs.foldl max x := by
  induction xs generalizing x with
  | nil =>
      rcases List.mem_cons.mp hy with h | h
      · rw [h]; exact le_refl x
      · cases h
  | cons a t ih =>
      rcases List.mem_cons.mp hy with h | h
      · calc y = x := h
          _ ≤ max x a := le_max_left _ _
          _ ≤ t.foldl max (max x a) := le_foldl_max_seed t _
      · rcases List.mem_cons.mp h with h' | h'
        · calc y = a := h'
            _ ≤ max x a := le_max_right _ _
            _ ≤ t.foldl max (max x a) := le_foldl_max_seed t _
        · exact ih (max x a) (List.mem_cons_of_mem _ h')

/-- Fact: `foldl max` attains its value at the seed or at some element. -/
theorem foldl_max_mem (xs : List ℝ) (x : ℝ) : xs.foldl max x ∈ x :: xs := by
  induction xs generalizing x with
  | nil => exact List.mem_cons_self _ _
  | cons a t ih =>
      have := ih (max x a)
      rcases List.mem_cons.mp this with h | h
      · rcases max_choice x a with hm | hm
        · rw [List.foldl_cons, h, hm]
          exact List.mem_cons_self _ _
        · rw [List.foldl_cons, h, hm]
          exact List.mem_cons_of_mem _ (List.mem_cons_self _ _)
      · exact List.mem_cons_of_mem _ (List.mem_cons_of_mem _ h)

/-- Fact: `listMax` bounds every element from above. -/
theorem le_listMax {l : List ℝ} {y : ℝ} (hy : y ∈ l) : y ≤ listMax l := by
  cases l with
  | nil => cases hy
  | cons x xs => exact le_foldl_max xs x y hy

/-- Fact: `listMax` of a nonempty list is one of its elements. -/
theorem listMax_mem {l : List ℝ} (hl : l ≠ []) : listMax l ∈ l := by
  cases l with
  | nil => cases hl rfl
  | cons x xs => exact foldl_max_mem xs x

open Classical in
/-- The spec's characterization of `find_prefixsum_idx`: for `0 ≤ mass`
strictly below the occupied total, the returned index is an occupied slot
with `prefixsum(0..i-1) ≤ mass < prefixsum(0..i)`. -/
theorem find_prefixsum_idx_spec (leaves : ℕ → ℝ) (mass : ℝ) (n : ℕ)
    (hn : 0 < n) (h0 : 0 ≤ mass)
    (hlt : mass < ∑ j in Finset.range n, leaves j) :
    find_prefixsum_idx leaves mass < n ∧
    (∑ j in Finset.range (find_prefixsum_idx leaves mass), leaves j) ≤ mass ∧
    mass < ∑ j in Finset.range (find_prefixsum_idx leaves mass + 1), leaves j := by
  have hn1 : n - 1 + 1 = n := by omega
  have hex : ∃ i, mass < ∑ j in Finset.range (i + 1), leaves j := by
    refine ⟨n - 1, ?_⟩
    rw [hn1]
    exact hlt
  have hdef : find_prefixsum_idx leaves mass = Nat.find hex := by
    rw [find_prefixsum_idx, dif_pos hex]
  refine ⟨?_, ?_, ?_⟩
  · rw [hdef]
    have hfle : Nat.find hex ≤ n - 1 := Nat.find_min' hex (by
      rw [hn1]; exact hlt)
    omega
  · rw [hdef]
    rcases Nat.eq_zero_or_pos (Nat.find hex) with hz | hpos
    · rw [hz]
      simpa using h0
    · have hnot := Nat.find_min hex (m := Nat.find hex - 1) (by omega)
      rw [not_lt] at hnot
      have : Nat.find hex - 1 + 1 = Nat.find hex := by omega
      rw [this] at hnot
      exact hnot
  · rw [hdef]
    exact Nat.find_spec hex

/-- C2 (amended): with `beta > 0` on a non-empty buffer whose occupied
sum-tree leaves are positive and mirrored by the min tree (true of every
reachable state), every weight returned by `sample` lies in `(0, 1]`, and
`max(weights) = 1` whenever some sampled slot's stored `priority ** alpha`
equals the tree minimum.  The claim's unconditional "at least one entry
equals 1" is dropped: a batch that misses every minimum-priority slot has
all its weights strictly below 1 (see the counterexample). -/
theorem c2_sample_weights_amended {α : Type} (s : PrioritizedReplayBuffer α)
    (beta : ℝ) (hbeta : 0 < beta) (hne : s._storage.length ≠ 0)
    (hpos : ∀ i, i < s._storage.length → 0 < s._it_sum i)
    (hmineq : ∀ i, i < s._storage.length → s._it_min i = s._it_sum i)
    (us : List ℝ) (hus : ∀ u ∈ us, 0 ≤ u ∧ u < 1) :
    (∀ w ∈ s.sampleWeights beta us, 0 < w ∧ w ≤ 1) ∧
    ((∃ i ∈ s.sampleIdxes us, s._it_sum i = s.treeMin) →
      listMax (s.sampleWeights beta us) = 1) := by
  set n := s._storage.length with hn
  have hn0 : 0 < n := Nat.pos_of_ne_zero hne
  have hT : 0 < s.treeTotal := by
    refine Finset.sum_pos ?_ ⟨0, Finset.mem_range.mpr hn0⟩
    intro i hi
    exact hpos i (Finset.mem_range.mp hi)
  -- the min-tree root is positive and bounds every occupied sum leaf
  have hmm : s.treeMin ∈ (List.range n).map s._it_min := by
    refine listMin_mem ?_
    intro hnil
    have : n = 0 := by simpa [List.map_eq_nil, List.range_eq_nil] using hnil
    omega
  have hmpos : 0 < s.treeMin := by
    obtain ⟨i0, hi0, hmi⟩ := List.mem_map.mp hmm
    rw [← hmi, hmineq i0 (List.mem_range.mp hi0)]
    exact hpos i0 (List.mem_range.mp hi0)
  have hmle : ∀ i, i < n → s.treeMin ≤ s._it_sum i := by
    intro i hi
    have : s._it_min i ∈ (List.range n).map s._it_min :=
      List.mem_map.mpr ⟨i, List.mem_range.mpr hi, rfl⟩
    have := listMin_le this
    rwa [hmineq i hi] at this
  -- every drawn index is occupied (so its leaf dominates the minimum)
  have hdrawn : ∀ u, 0 ≤ u → u < 1 →
      find_prefixsum_idx s._it_sum (u * s.treeTotal) < n := by
    intro u hu0 hu1
    have hmass0 : 0 ≤ u * s.treeTotal := mul_nonneg hu0 (le_of_lt hT)
    have hmasslt : u * s.treeTotal < s.treeTotal := by
      have := mul_lt_mul_of_pos_right hu1 hT
      simpa using this
    exact (find_prefixsum_idx_spec s._it_sum (u * s.treeTotal) n hn0 hmass0
      hmasslt).1
  -- the weight of any occupied slot is in (0, 1], and exactly 1 at a
  -- minimum-priority slot
  have hweight : ∀ i, i < n →
      (0 < s.weightOf beta i ∧ s.weightOf beta i ≤ 1) ∧
      (s._it_sum i = s.treeMin → s.weightOf beta i = 1) := by
    intro i hi
    have hL : (0 : ℝ) < (n : ℝ) := by exact_mod_cast hn0
    have hb : 0 < (s.treeMin / s.treeTotal) * (n : ℝ) :=
      mul_pos (div_pos hmpos hT) hL
    have hba : (s.treeMin / s.treeTotal) * (n : ℝ) ≤
        (s._it_sum i / s.treeTotal) * (n : ℝ) := by
      refine mul_le_mul_of_nonneg_right ?_ (le_of_lt hL)
      exact (div_le_div_right hT).mpr (hmle i hi)
    have ha : 0 < (s._it_sum i / s.treeTotal) * (n : ℝ) := lt_of_lt_of_le hb hba
    have hB : 0 < ((s.treeMin / s.treeTotal) * (n : ℝ)) ^ (-beta) :=
      Real.rpow_pos_of_pos hb _
    have hA : 0 < ((s._it_sum i / s.treeTotal) * (n : ℝ)) ^ (-beta) :=
      Real.rpow_pos_of_pos ha _
    have hAB : ((s._it_sum i / s.treeTotal) * (n : ℝ)) ^ (-beta) ≤
        ((s.treeMin / s.treeTotal) * (n : ℝ)) ^ (-beta) := by
      rw [Real.rpow_neg (le_of_lt ha), Real.rpow_neg (le_of_lt hb)]
      refine inv_le_inv_of_le (Real.rpow_pos_of_pos hb _) ?_
      exact Real.rpow_le_rpow (le_of_lt hb) hba (le_of_lt hbeta)
    refine ⟨⟨div_pos hA hB, (div_le_one hB).mpr hAB⟩, ?_⟩
    intro heq
    unfold PrioritizedReplayBuffer.weightOf
    rw [heq]
    exact div_self (ne_of_gt hB)
  constructor
  · intro w hw
    obtain ⟨i, hi, hwi⟩ := List.mem_map.mp hw
    obtain ⟨u, hu, hui⟩ := List.mem_map.mp hi
    have hin : i < n := by
      rw [← hui]
      exact hdrawn u (hus u hu).1 (hus u hu).2
    rw [← hwi]
    exact (hweight i hin).1
  · rintro ⟨i, hi, heq⟩
    have hin : i < n := by
      obtain ⟨u, hu, hui⟩ := List.mem_map.mp hi
      rw [← hui]
      exact hdrawn u (hus u hu).1 (hus u hu).2
    have h1 : s.weightOf beta i = 1 := (hweight i hin).2 heq
    have hmem1 : (1 : ℝ) ∈ s.sampleWeights beta us := by
      rw [← h1]
      exact List.mem_map.mpr ⟨i, hi, rfl⟩
    have hne' : s.sampleWeights beta us ≠ [] := by
      intro hnil
      rw [hnil] at hmem1
      cases hmem1
    refine le_antisymm ?_ (le_listMax hmem1)
    have hmax := listMax_mem hne'
    obtain ⟨j, hj, hwj⟩ := List.mem_map.mp hmax
    obtain ⟨u, hu, huj⟩ := List.mem_map.mp hj
    have hjn : j < n := by
      rw [← huj]
      exact hdrawn u (hus u hu).1 (hus u hu).2
    rw [← hwj]
    exact ((hweight j hjn).1).2

/-- Leaf values of the counterexample state `cexP`. -/
theorem cexP_fields :
    cexP._it_sum 0 = 1 ∧ cexP._it_sum 1 = 3 ∧
    cexP._it_min 0 = 1 ∧ cexP._it_min 1 = 3 ∧
    cexP._storage = [5, 6] := by
  refine ⟨?_, ?_, ?_, ?_, rfl⟩ <;>
    simp [cexP, PrioritizedReplayBuffer.update_priorities,
      PrioritizedReplayBuffer.add, PrioritizedReplayBuffer.init, treeWrite,
      Function.update_apply, Real.one_rpow, Real.rpow_one]

/-- The sum-tree total of `cexP` is 4. -/
theorem cexP_total : cexP.treeTotal = 4 := by
  obtain ⟨h0, h1, _, _, hst⟩ := cexP_fields
  rw [PrioritizedReplayBuffer.treeTotal, hst]
  simp [Finset.sum_range_succ, h0, h1]
  norm_num

/-- The min-tree root of `cexP` is 1. -/
theorem cexP_min : cexP.treeMin = 1 := by
  obtain ⟨_, _, hm0, hm1, hst⟩ := cexP_fields
  rw [PrioritizedReplayBuffer.treeMin, hst]
  show listMin ((List.range 2).map cexP._it_min) = 1
  have : (List.range 2).map cexP._it_min = [cexP._it_min 0, cexP._it_min 1] := rfl
  rw [this, hm0, hm1]
  show min 1 3 = (1 : ℝ)
  norm_num

open Classical in
/-- On `cexP`, the draw `u = 1/2` (mass 2) resolves to slot 1. -/
theorem cexP_draw_half : find_prefixsum_idx cexP._it_sum ((1 / 2) * cexP.treeTotal) = 1 := by
  obtain ⟨h0, h1, _, _, _⟩ := cexP_fields
  have hmass : (1 / 2 : ℝ) * cexP.treeTotal = 2 := by
    rw [cexP_total]; norm_num
  rw [hmass]
  have hex : ∃ i, (2 : ℝ) < ∑ j in Finset.range (i + 1), cexP._it_sum j := by
    refine ⟨1, ?_⟩
    simp [Finset.sum_range_succ, h0, h1]
    norm_num
  rw [find_prefixsum_idx, dif_pos hex]
  rw [Nat.find_eq_iff hex]
  constructor
  · simp [Finset.sum_range_succ, h0, h1]
    norm_num
  · intro m hm
    have : m = 0 := by omega
    rw [this]
    simp [Finset.sum_range_succ, h0]

/-- C2 counterexample: `cexP` (leaves 1 and 3, both trees, `alpha = 1`) is
non-empty and `beta = 1 > 0`, yet the batch drawn with the single outcome
`u = 1/2` — which lands on the non-minimal slot 1 — has weights `[1/3]`:
no entry of the returned weights equals 1. -/
theorem c2_weights_counterexample :
    cexP._storage.length = 2 ∧ (0 : ℝ) < 1 ∧
    cexP.sampleWeights 1 [1 / 2] = [1 / 3] ∧
    ¬ ∃ w ∈ cexP.sampleWeights 1 [1 / 2], w = 1 := by
  obtain ⟨h0, h1, _, _, hst⟩ := cexP_fields
  have hlen : cexP._storage.length = 2 := by rw [hst]; rfl
  have hws : cexP.sampleWeights 1 [1 / 2] = [1 / 3] := by
    rw [PrioritizedReplayBuffer.sampleWeights, PrioritizedReplayBuffer.sampleIdxes]
    rw [List.map_cons, List.map_nil, cexP_draw_half, List.map_cons, List.map_nil]
    rw [PrioritizedReplayBuffer.weightOf, cexP_total, cexP_min, h1, hlen]
    norm_num
  refine ⟨hlen, by norm_num, hws, ?_⟩
  rw [hws]
  rintro ⟨w, hw, hw1⟩
  simp only [List.mem_singleton] at hw
  rw [hw] at hw1
  norm_num at hw1

/-- C2 amended witness: on `cexP` with `beta = 1` and the single draw
`u = 0` (which resolves to the minimum slot 0). -/
theorem c2_sample_weights_amended_witness :
    (∀ w ∈ cexP.sampleWeights 1 [0], 0 < w ∧ w ≤ 1) ∧
    ((∃ i ∈ cexP.sampleIdxes [0], cexP._it_sum i = cexP.treeMin) →
      listMax (cexP.sampleWeights 1 [0]) = 1) := by
  obtain ⟨h0, h1, hm0, hm1, hst⟩ := cexP_fields
  have hlen : cexP._storage.length = 2 := by rw [hst]; rfl
  refine c2_sample_weights_amended cexP 1 (by norm_num) ?_ ?_ ?_ [0] ?_
  · rw [hlen]; omega
  · intro i hi
    have hi2 : i < 2 := by rw [hlen] at hi; exact hi
    interval_cases i
    · rw [h0]; norm_num
    · rw [h1]; norm_num
  · intro i hi
    have hi2 : i < 2 := by rw [hlen] at hi; exact hi
    interval_cases i
    · rw [h0, hm0]
    · rw [h1, hm1]
  · intro u hu
    simp only [List.mem_singleton] at hu
    rw [hu]
    norm_num

/-- Unfolding `epLookup` on a cons cell. -/
theorem epLookup_cons {β : Type} (q : (ℕ × ℕ) × β) (t : List ((ℕ × ℕ) × β))
    (k : ℕ × ℕ) :
    epLookup (q :: t) k = if q.1 = k then some q.2 else epLookup t k := rfl

/-- Unfolding `epSet` on a cons cell. -/
theorem epSet_cons {β : Type} (q : (ℕ × ℕ) × β) (t : List ((ℕ × ℕ) × β))
    (k : ℕ × ℕ) (v : β) :
    epSet (q :: t) k v = if q.1 = k then (k, v) :: t else q :: epSet t k v := rfl

/-- Unfolding `epDel` on a cons cell. -/
theorem epDel_cons {β : Type} (q : (ℕ × ℕ) × β) (t : List ((ℕ × ℕ) × β))
    (k : ℕ × ℕ) :
    epDel (q :: t) k = if q.1 = k then t else q :: epDel t k := rfl

/-- A key absent from an association list looks up to `none`. -/
theorem epLookup_not_mem {β : Type} (m : List ((ℕ × ℕ) × β)) (k : ℕ × ℕ)
    (h : k ∉ m.map Prod.fst) : epLookup m k = none := by
  induction m with
  | nil => rfl
  | cons q t ih =>
      simp only [List.map_cons, List.mem_cons] at h
      push_neg at h
      have hq : ¬ q.1 = k := fun he => h.1 he.symm
      rw [epLookup_cons, if_neg hq]
      exact ih h.2

/-- Looking up the key just set returns the value set. -/
theorem epLookup_epSet_self {β : Type} (m : List ((ℕ × ℕ) × β)) (k : ℕ × ℕ)
    (v : β) : epLookup (epSet m k v) k = some v := by
  induction m with
  | nil => simp [epSet, epLookup]
  | cons q t ih =>
      by_cases hq : q.1 = k
      · rw [epSet_cons, if_pos hq, epLookup_cons, if_pos rfl]
      · rw [epSet_cons, if_neg hq, epLookup_cons, if_neg hq]
        exact ih

/-- Setting one key leaves the lookup of any other key unchanged. -/
theorem epLookup_epSet_ne {β : Type} (m : List ((ℕ × ℕ) × β)) (k k' : ℕ × ℕ)
    (v : β) (h : k' ≠ k) : epLookup (epSet m k v) k' = epLookup m k' := by
  have hkk : ¬ k = k' := fun he => h he.symm
  induction m with
  | nil =>
      show (if k = k' then some v else none) = none
      rw [if_neg hkk]
  | cons q t ih =>
      by_cases hq : q.1 = k
      · rw [epSet_cons, if_pos hq, epLookup_cons, epLookup_cons, if_neg hkk,
          if_neg (show ¬ q.1 = k' from hq ▸ hkk)]
      · rw [epSet_cons, if_neg hq, epLookup_cons, epLookup_cons]
        by_cases hq' : q.1 = k'
        · rw [if_pos hq', if_pos hq']
        · rw [if_neg hq', if_neg hq']
          exact ih

/-- The keys after `epSet` are the old keys, plus `k` if it was absent. -/
theorem epSet_keys_mem {β : Type} (m : List ((ℕ × ℕ) × β)) (k k' : ℕ × ℕ)
    (v : β) : k' ∈ (epSet m k v).map Prod.fst ↔
      k' = k ∨ k' ∈ m.map Prod.fst := by
  induction m with
  | nil => simp [epSet]
  | cons q t ih =>
      by_cases hq : q.1 = k
      · rw [epSet_cons, if_pos hq]
        simp only [List.map_cons, List.mem_cons, hq]
        tauto
      · rw [epSet_cons, if_neg hq]
        simp only [List.map_cons, List.mem_cons, ih]
        tauto

/-- Fact: `epSet` preserves key uniqueness. -/
theorem epSet_nodupKeys {β : Type} (m : List ((ℕ × ℕ) × β)) (k : ℕ × ℕ)
    (v : β) (h : (m.map Prod.fst).Nodup) :
    ((epSet m k v).map Prod.fst).Nodup := by
  induction m with
  | nil => simp [epSet]
  | cons q t ih =>
      simp only [List.map_cons, List.nodup_cons] at h
      by_cases hq : q.1 = k
      · rw [epSet_cons, if_pos hq]
        simp only [List.map_cons, List.nodup_cons]
        exact ⟨fun hm => h.1 (hq ▸ hm), h.2⟩
      · rw [epSet_cons, if_neg hq]
        simp only [List.map_cons, List.nodup_cons]
        refine ⟨?_, ih h.2⟩
        intro hmem
        rcases (epSet_keys_mem t k q.1 v).mp hmem with he | he
        · exact hq he
        · exact h.1 he

/-- With unique keys, deleting a key makes its lookup `none`. -/
theorem epLookup_epDel_self {β : Type} (m : List ((ℕ × ℕ) × β)) (k : ℕ × ℕ)
    (h : (m.map Prod.fst).Nodup) : epLookup (epDel m k) k = none := by
  induction m with
  | nil => rfl
  | cons q t ih =>
      simp only [List.map_cons, List.nodup_cons] at h
      by_cases hq : q.1 = k
      · rw [epDel_cons, if_pos hq]
        exact epLookup_not_mem t k (fun hm => h.1 (hq ▸ hm))
      · rw [epDel_cons, if_neg hq, epLookup_cons, if_neg hq]
        exact ih h.2

/-- C6: consider any `add` whose write overwrites an occupied slot (so the
call found the record `old` there), completing without exception.  If `old`
is terminal, `old`'s episode key is afterwards absent from the episode
index; if `old` is not terminal, no episode index entry is deleted — every
key with an entry before the call still has one after it. -/
theorem c6_eviction_cleanup {α : Type} (s : EpisodicReplayBuffer α)
    (hnd : (s.episodes.map Prod.fst).Nodup)
    (obs : α) (act : ℤ) (reward : ℚ) (nxtobs : α) (done : Bool) (worker : ℕ)
    (terminal : Bool) (old : EpisodicRecord α)
    (hov : s._storage[s._next_idx]? = some old)
    (s' : EpisodicReplayBuffer α)
    (hadd : s.add obs act reward nxtobs done worker terminal = Except.ok s') :
    (old.terminal = true → epLookup s'.episodes old.epkey = none) ∧
    (old.terminal = false → ∀ k, (epLookup s.episodes k).isSome →
      (epLookup s'.episodes k).isSome) := by
  obtain ⟨hlt, hold⟩ := List.getElem?_eq_some.mp hov
  have hget : s._storage.get ⟨s._next_idx, hlt⟩ = old := hold
  -- name the intermediate episode maps of `add`
  set key := (worker, s.worker_ep worker) with hkey
  set eps0 := (match epLookup s.episodes key with
    | none => epSet s.episodes key []
    | some _ => s.episodes) with heps0
  set lst1 := (epLookup eps0 key).getD [] ++ [s._next_idx] with hlst1
  set eps1 := epSet eps0 key lst1 with heps1
  have hnd0 : (eps0.map Prod.fst).Nodup := by
    rw [heps0]
    rcases epLookup s.episodes key with _ | v
    · exact epSet_nodupKeys _ _ _ hnd
    · exact hnd
  have hnd1 : (eps1.map Prod.fst).Nodup := epSet_nodupKeys _ _ _ hnd0
  have hkeep : ∀ k, (epLookup s.episodes k).isSome →
      (epLookup eps1 k).isSome := by
    intro k hk
    by_cases hkk : k = key
    · rw [heps1, hkk, epLookup_epSet_self]
      rfl
    · rw [heps1, epLookup_epSet_ne _ _ _ _ hkk]
      rw [heps0]
      rcases hle : epLookup s.episodes key with _ | v
      · rw [epLookup_epSet_ne _ _ _ _ hkk]
        exact hk
      · exact hk
  rw [EpisodicReplayBuffer.add] at hadd
  simp only [dif_pos hlt, hget] at hadd
  by_cases hterm : old.terminal = true
  · rw [if_pos hterm] at hadd
    rcases hle : epLookup eps1 old.epkey with _ | v
    · rw [← hkey, ← heps0, ← hlst1, ← heps1] at hadd
      rw [hle] at hadd
      cases hadd
    · rw [← hkey, ← heps0, ← hlst1, ← heps1] at hadd
      rw [hle] at hadd
      have hs' : s'.episodes = epDel eps1 old.epkey :=
        congrArg EpisodicReplayBuffer.episodes (Except.ok.inj hadd).symm
      refine ⟨fun _ => ?_, fun hf => absurd hterm (by rw [hf]; exact Bool.false_ne_true)⟩
      rw [hs']
      exact epLookup_epDel_self _ _ hnd1
  · rw [if_neg hterm] at hadd
    rw [← hkey, ← heps0, ← hlst1, ← heps1] at hadd
    have hs' : s'.episodes = eps1 :=
      congrArg EpisodicReplayBuffer.episodes (Except.ok.inj hadd).symm
    refine ⟨fun ht => absurd ht hterm, fun _ => ?_⟩
    intro k hk
    rw [hs']
    exact hkeep k hk

/-- C6 witness: a capacity-1 buffer whose only slot holds a terminal
record; the next `add` overwrites it and its episode key `(0, 0)` is gone. -/
theorem c6_eviction_cleanup_witness :
    (crec.terminal = true → epLookup c6after.episodes crec.epkey = none) ∧
    (crec.terminal = false → ∀ k, (epLookup c6state.episodes k).isSome →
      (epLookup c6after.episodes k).isSome) :=
  c6_eviction_cleanup c6state (by decide) 9 0 1 9 false 0 false crec rfl
    c6after rfl

/-- Fact: `epStorage` has one record per input. -/
theorem epStorage_length {α : Type} (j : ℕ)
    (ts : List (α × ℤ × ℚ × α × Bool)) :
    (epStorage j ts).length = ts.length := by
  induction ts generalizing j with
  | nil => rfl
  | cons t ts ih => simp [epStorage, ih]

/-- Fact: `epStorage` over an appended input. -/
theorem epStorage_append {α : Type} (j : ℕ)
    (ts : List (α × ℤ × ℚ × α × Bool)) (t : α × ℤ × ℚ × α × Bool) :
    epStorage j (ts ++ [t]) = epStorage j ts ++ [epRec (j + ts.length) t] := by
  induction ts generalizing j with
  | nil => simp [epStorage]
  | cons u ts ih =>
      show epRec j u :: epStorage (j + 1) (ts ++ [t]) =
        epRec j u :: epStorage (j + 1) ts ++ [epRec (j + (ts.length + 1)) t]
      rw [ih (j + 1)]
      have hj : j + 1 + ts.length = j + (ts.length + 1) := by omega
      rw [hj]
      rfl

/-- Reading `epStorage` at a position. -/
theorem epStorage_getElem {α : Type} (j i : ℕ)
    (ts : List (α × ℤ × ℚ × α × Bool)) :
    (epStorage j ts)[i]? = (ts[i]?).map (epRec (j + i)) := by
  induction ts generalizing j i with
  | nil => simp [epStorage]
  | cons t ts ih =>
      cases i with
      | zero => simp [epStorage]
      | succ i =>
          simp only [epStorage, List.getElem?_cons_succ, ih (j + 1) i]
          have hj : j + 1 + i = j + (i + 1) := by omega
          rw [hj]

/-- The state after adding one whole (in-progress) episode for worker 0
into a fresh episodic buffer of sufficient capacity: storage holds the
records in order with 1-based positions, and the episode index maps
`(0, 0)` to all slots in order. -/
theorem addSeq_state {α : Type} (c n : ℕ) (g : ℚ)
    (ts : List (α × ℤ × ℚ × α × Bool)) (hlen : ts.length ≤ c) (hne : ts ≠ []) :
    (EpisodicReplayBuffer.init α c n g).addSeq ts =
      Except.ok
        { _storage := epStorage 0 ts, _maxsize := c,
          _next_idx := ts.length % c,
          episodes := [((0, 0), List.range ts.length)],
          worker_ep := fun _ => 0, n_step := n, gamma := g } := by
  induction ts using List.reverseRecOn with
  | nil => cases hne rfl
  | append_singleton ys y ih =>
      by_cases hys : ys = []
      · subst hys
        simp only [List.nil_append]
        show (EpisodicReplayBuffer.init α c n g).add y.1 y.2.1 y.2.2.1
            y.2.2.2.1 y.2.2.2.2 0 false >>= (fun st => pure st) = _
        rw [EpisodicReplayBuffer.add]
        simp [EpisodicReplayBuffer.init, epLookup, epSet, epStorage, epRec,
          List.range_succ]
      · have hys' : ys.length < c := by
          have : (ys ++ [y]).length = ys.length + 1 := by simp
          omega
        have hfold : (EpisodicReplayBuffer.init α c n g).addSeq (ys ++ [y]) =
            ((EpisodicReplayBuffer.init α c n g).addSeq ys) >>= (fun st =>
              st.add y.1 y.2.1 y.2.2.1 y.2.2.2.1 y.2.2.2.2 0 false) := by
          show List.foldlM _ _ (ys ++ [y]) = _
          rw [List.foldlM_append]
          simp [EpisodicReplayBuffer.addSeq]
        rw [hfold, ih (le_of_lt hys') hys]
        show EpisodicReplayBuffer.add _ y.1 y.2.1 y.2.2.1 y.2.2.2.1 y.2.2.2.2
            0 false = _
        rw [EpisodicReplayBuffer.add]
        have hm : ys.length % c = ys.length := Nat.mod_eq_of_lt hys'
        have hsl : (epStorage 0 ys).length = ys.length := epStorage_length 0 ys
        simp only [hm, hsl, epLookup, epSet, eq_self_iff_true, if_true,
          Option.getD_some, dif_neg (lt_irrefl ys.length)]
        rw [epStorage_append, ← List.range_succ]
        simp [epRec, List.range_succ]

/-- Fact: `Except` bind on a success, by definition. -/
theorem except_ok_bind {ε α β : Type} (x : α) (f : α → Except ε β) :
    (Except.ok x : Except ε α) >>= f = f x := rfl

/-- Fact: `Except` pure, by definition. -/
theorem except_pure_eq {ε α : Type} (x : α) :
    (pure x : Except ε α) = Except.ok x := rfl

/-- A `take` of `range` is a `range` of the `min`. -/
theorem take_range_eq (n b : ℕ) :
    (List.range b).take n = List.range (min n b) := by
  rcases le_total n b with h | h
  · have hb : b = n + (b - n) := by omega
    conv_lhs => rw [hb]
    rw [List.range_add, List.take_left' (by simp), Nat.min_eq_left h]
  · rw [List.take_all_of_le (by simp [h]), Nat.min_eq_right h]

/-- The slot indices `_encode_sample` folds for a record at 0-based episode
position `p` (1-based stored position `p + 1`): the first
`min n_step (E - (p + 1))` indices after `p`. -/
theorem range_drop_take (E p n : ℕ) :
    ((List.range E).drop (p + 1)).take n =
      (List.range (min n (E - (p + 1)))).map (fun k => p + 1 + k) := by
  rcases le_total (p + 1) E with hp | hp
  · have hE : E = (p + 1) + (E - (p + 1)) := by omega
    conv_lhs => rw [hE]
    rw [List.range_add, List.drop_left' (by simp), ← List.map_take,
      take_range_eq]
  · have hE : E - (p + 1) = 0 := by omega
    rw [List.drop_eq_nil_of_le (by simp [hp]), hE]
    simp

/-- Folding `encodeOne`'s loop over the `m` consecutive slots starting at
slot `a` of an `addSeq`-shaped storage: the reward accumulates
`gam * gamma ^ k` times each folded slot's reward, the running discount is
multiplied `m` times, and next-observation/done are those of the last
folded slot (the seed values when `m = 0`). -/
theorem encode_foldlM {α : Type} (ts : List (α × ℤ × ℚ × α × Bool)) (g : ℚ)
    (m a : ℕ) (hma : a + m ≤ ts.length) (r0 gam : ℚ) (x0 : α) (d0 : Bool) :
    ((List.range m).map (fun k => a + k)).foldlM
        (fun (acc : ℚ × ℚ × α × Bool) (nidx : ℕ) =>
          (match (epStorage 0 ts)[nidx]? with
           | none => Except.error PyErr.indexError
           | some d =>
               Except.ok (acc.1 + acc.2.1 * d.reward, acc.2.1 * g,
                 d.nxtobs, d.done) : Except PyErr (ℚ × ℚ × α × Bool)))
        (r0, gam, x0, d0) =
      Except.ok
        (r0 + ∑ k in Finset.range m, gam * g ^ k * rewAt ts (a + k),
         gam * g ^ m,
         (if m = 0 then (x0, d0) else
          (((ts[a + (m - 1)]?).map (fun t => t.2.2.2.1)).getD x0,
           ((ts[a + (m - 1)]?).map (fun t => t.2.2.2.2)).getD d0))) := by
  induction m with
  | zero => simp [except_pure_eq]
  | succ m ih =>
      have hlt : a + m < ts.length := by omega
      obtain ⟨t, ht⟩ : ∃ t, ts[a + m]? = some t := by
        rw [List.getElem?_eq_getElem hlt]
        exact ⟨_, rfl⟩
      have hstor : (epStorage 0 ts)[a + m]? = some (epRec (a + m) t) := by
        rw [epStorage_getElem, Nat.zero_add, ht]
        rfl
      have hrew : rewAt ts (a + m) = t.2.2.1 := by
        rw [rewAt, ht]
        rfl
      rw [List.range_succ, List.map_append, List.foldlM_append, ih (by omega)]
      rw [except_ok_bind]
      simp only [List.map_cons, List.map_nil, List.foldlM_cons,
        List.foldlM_nil, hstor]
      rw [except_ok_bind, except_pure_eq]
      simp only [Except.ok.injEq, Prod.mk.injEq]
      refine ⟨?_, ?_, ?_⟩
      · rw [Finset.sum_range_succ, hrew]
        show _ + (gam * g ^ m) * (epRec (a + m) t).reward = _
        show _ + (gam * g ^ m) * t.2.2.1 = _
        ring
      · rw [pow_succ]
        ring
      · rw [if_neg (Nat.succ_ne_zero m), Nat.succ_sub_one, ht]
        rfl

/-- C1 (amended): for a stored episode of `E` transitions (adds into a
fresh buffer of capacity ≥ `E`), sampling the record at 0-based position
`p`: with `m = min n_step (E - 1 - p)` — the folded *subsequent*
transitions — the returned reward is `Σ_{k=0}^{m} gamma^k * reward_{p+k}`,
i.e. the sampled transition plus up to `n_step` (not `n_step - 1`)
successors, and `next_observation`/`done` are those of position `p + m`
(not `p + m - 1`): the stored episode position is 1-based, so the slice
starts one past the sampled slot. -/
theorem encodeOne_addSeq_spec {α : Type} (c n : ℕ) (g : ℚ)
    (ts : List (α × ℤ × ℚ × α × Bool)) (hlen : ts.length ≤ c) (hne : ts ≠ [])
    (p : ℕ) (hp : p < ts.length)
    (S : EpisodicReplayBuffer α)
    (hS : (EpisodicReplayBuffer.init α c n g).addSeq ts = Except.ok S) :
    ∃ tp tm, ts[p]? = some tp ∧
      ts[p + min n (ts.length - 1 - p)]? = some tm ∧
      S.encodeOne p =
        Except.ok (tp.1, tp.2.1,
          ∑ k in Finset.range (min n (ts.length - 1 - p) + 1),
            g ^ k * rewAt ts (p + k),
          tm.2.2.2.1, tm.2.2.2.2) := by
  rw [addSeq_state c n g ts hlen hne] at hS
  have hSeq : S =
      { _storage := epStorage 0 ts, _maxsize := c,
        _next_idx := ts.length % c,
        episodes := [((0, 0), List.range ts.length)],
        worker_ep := fun _ => 0, n_step := n, gamma := g } :=
    (Except.ok.inj hS).symm
  subst hSeq
  have hmle : min n (ts.length - 1 - p) ≤ ts.length - 1 - p :=
    Nat.min_le_right _ _
  have hpm : p + min n (ts.length - 1 - p) < ts.length := by omega
  obtain ⟨tp, htp⟩ : ∃ tp, ts[p]? = some tp := by
    rw [List.getElem?_eq_getElem hp]
    exact ⟨_, rfl⟩
  obtain ⟨tm, htm⟩ : ∃ tm, ts[p + min n (ts.length - 1 - p)]? = some tm := by
    rw [List.getElem?_eq_getElem hpm]
    exact ⟨_, rfl⟩
  refine ⟨tp, tm, htp, htm, ?_⟩
  have hs0 : (epStorage 0 ts)[p]? = some (epRec p tp) := by
    rw [epStorage_getElem, Nat.zero_add, htp]
    rfl
  have hlook : epLookup [((0, 0), List.range ts.length)] ((0 : ℕ), (0 : ℕ)) =
      some (List.range ts.length) := by
    rw [epLookup_cons, if_pos rfl]
  have hsub : ts.length - 1 - p = ts.length - (p + 1) := by omega
  rw [EpisodicReplayBuffer.encodeOne]
  simp only [hs0, epRec, hlook]
  rw [range_drop_take]
  rw [encode_foldlM ts g (min n (ts.length - (p + 1))) (p + 1)
    (by have := Nat.min_le_right n (ts.length - (p + 1)); omega)]
  rw [Except.map]
  simp only [Except.ok.injEq, Prod.mk.injEq]
  rw [hsub]
  refine ⟨trivial, trivial, ?_, ?_⟩
  · -- reward component
    rw [Finset.sum_range_succ']
    have hcongr : ∀ k ∈ Finset.range (min n (ts.length - (p + 1))),
        g ^ (k + 1) * rewAt ts (p + (k + 1)) =
          g * g ^ k * rewAt ts (p + 1 + k) := by
      intro k _
      have h1 : p + (k + 1) = p + 1 + k := by omega
      rw [h1, pow_succ]
      ring
    rw [Finset.sum_congr rfl hcongr]
    have hrp : rewAt ts (p + 0) = tp.2.2.1 := by
      have hpp : p + 0 = p := rfl
      rw [hpp, rewAt, htp]
      rfl
    rw [pow_zero, hrp, one_mul]
    ring
  · -- trailing next-observation / done
    rw [hsub] at htm
    by_cases hm0 : min n (ts.length - (p + 1)) = 0
    · rw [if_pos hm0]
      rw [hm0, Nat.add_zero] at htm
      have : tm = tp := by
        rw [htp] at htm
        exact (Option.some.inj htm).symm
      rw [this]
      exact ⟨rfl, rfl⟩
    · rw [if_neg hm0]
      have hidx : p + 1 + (min n (ts.length - (p + 1)) - 1) =
          p + min n (ts.length - (p + 1)) := by omega
      rw [hidx, htm]
      exact ⟨rfl, rfl⟩

/-- C1 (amended): for a stored episode, sampling the record at 0-based
position `p` returns, with `m = min n_step (E - 1 - p)` counting the folded
*subsequent* transitions, the reward `Σ_{k=0}^{m} gamma^k * reward_{p+k}` —
the sampled transition plus up to `n_step` (not `n_step - 1`) successors —
and the `next_observation`/`done` of position `p + m` (not `p + m - 1`). -/
theorem c1_nstep_fold_amended {α : Type} (c n : ℕ) (g : ℚ)
    (ts : List (α × ℤ × ℚ × α × Bool)) (hlen : ts.length ≤ c) (hne : ts ≠ [])
    (p : ℕ) (hp : p < ts.length)
    (S : EpisodicReplayBuffer α)
    (hS : (EpisodicReplayBuffer.init α c n g).addSeq ts = Except.ok S) :
    ∃ tp tm, ts[p]? = some tp ∧
      ts[p + min n (ts.length - 1 - p)]? = some tm ∧
      S.encodeOne p =
        Except.ok (tp.1, tp.2.1,
          ∑ k in Finset.range (min n (ts.length - 1 - p) + 1),
            g ^ k * rewAt ts (p + k),
          tm.2.2.2.1, tm.2.2.2.2) :=
  encodeOne_addSeq_spec c n g ts hlen hne p hp S hS

/-- C1 amended witness: the `[1,1,1,1]`, `gamma = 1/2`, `n_step = 3`
episode, sampling position 0. -/
theorem c1_nstep_fold_amended_witness :
    ∃ tp tm, c1ts[0]? = some tp ∧
      c1ts[0 + min 3 (c1ts.length - 1 - 0)]? = some tm ∧
      c1S.encodeOne 0 =
        Except.ok (tp.1, tp.2.1,
          ∑ k in Finset.range (min 3 (c1ts.length - 1 - 0) + 1),
            (1 / 2 : ℚ) ^ k * rewAt c1ts (0 + k),
          tm.2.2.2.1, tm.2.2.2.2) :=
  c1_nstep_fold_amended 10 3 (1 / 2) c1ts (by decide) (by decide) 0 (by decide)
    c1S (addSeq_state 10 3 (1 / 2) c1ts (by decide) (by decide))

/-- C1 counterexample: the spec's own instance — an episode with rewards
`[1, 1, 1, 1]`, `gamma = 1/2`, `n_step = 3` — sampling the first
transition.  The stored episode position is 1-based, so the slice
`episodes[key][position : position + n_step]` selects the `n_step` slots
*after* the sampled one and the fold adds their discounted rewards to the
sampled slot's own: the returned reward is `1 + 1/2 + 1/4 + 1/8 = 15/8 =
1.875`, not the claimed `1.75`, and `next_observation`/`done` come from the
*fourth* transition (`nxtobs = 14`, `done = true`), not the third
(`nxtobs = 13`, `done = false`). -/
theorem c1_nstep_counterexample :
    (EpisodicReplayBuffer.init ℕ 10 3 (1 / 2)).addSeq c1ts = Except.ok c1S ∧
    c1S.encodeOne 0 = Except.ok (1, 0, 15 / 8, 14, true) ∧
    (15 / 8 : ℚ) ≠ 7 / 4 ∧ (14 : ℕ) ≠ 13 := by
  have hadd : (EpisodicReplayBuffer.init ℕ 10 3 (1 / 2)).addSeq c1ts =
      Except.ok c1S :=
    addSeq_state 10 3 (1 / 2) c1ts (by decide) (by decide)
  obtain ⟨tp, tm, htp, htm, henc⟩ :=
    encodeOne_addSeq_spec 10 3 (1 / 2) c1ts (by decide) (by decide) 0
      (by decide) c1S hadd
  refine ⟨hadd, ?_, by norm_num, by decide⟩
  rw [henc]
  have htp0 : c1ts[0]? = some ((1 : ℕ), (0 : ℤ), (1 : ℚ), (11 : ℕ), false) := rfl
  have htm0 : c1ts[0 + min 3 (c1ts.length - 1 - 0)]? =
      some ((4 : ℕ), (0 : ℤ), (1 : ℚ), (14 : ℕ), true) := rfl
  have htp1 : tp = ((1 : ℕ), (0 : ℤ), (1 : ℚ), (11 : ℕ), false) := by
    rw [htp0] at htp
    exact (Option.some.inj htp).symm
  have htm1 : tm = ((4 : ℕ), (0 : ℤ), (1 : ℚ), (14 : ℕ), true) := by
    rw [htm0] at htm
    exact (Option.some.inj htm).symm
  rw [htp1, htm1]
  have hmin : min 3 (c1ts.length - 1 - 0) = 3 := rfl
  rw [hmin]
  have h0 : rewAt c1ts (0 + 0) = 1 := rfl
  have h1 : rewAt c1ts (0 + 1) = 1 := rfl
  have h2 : rewAt c1ts (0 + 2) = 1 := rfl
  have h3 : rewAt c1ts (0 + 3) = 1 := rfl
  have hsum : (∑ k in Finset.range (3 + 1),
      (1 / 2 : ℚ) ^ k * rewAt c1ts (0 + k)) = 15 / 8 := by
    rw [Finset.sum_range_succ, Finset.sum_range_succ, Finset.sum_range_succ,
      Finset.sum_range_succ, Finset.sum_range_zero, h0, h1, h2, h3]
    norm_num
  rw [hsum]
